import Mathlib

/-!
Verification of the secure path-resolution and request-dispatch layer of the
go-file-service repository (`fileserver/fileserver.go`).

Paths are modelled as `List Char` (Unix build: the path separator is `'/'`).
The Go standard-library helpers used by the handler (`filepath.Clean`,
`filepath.Join`, `filepath.Abs`, `filepath.Dir`, `filepath.Ext`,
`strings.HasPrefix`, `strings.Contains`, `strings.TrimPrefix`) are translated
below; `filepath.Clean` follows the character machine of Go's
`path/filepath/path.go` (a lazy output buffer with a write index, a `dotdot`
floor, and a `rooted` flag), written with an explicit fuel argument that is
always instantiated with the input length so that the recursion is structural.

The filesystem itself is an external collaborator of the dispatcher; it is
modelled as an association list from paths to entries (file contents or a
directory marker), with `os.Stat`, `os.Create`, `os.MkdirAll`, `os.Remove`,
`os.RemoveAll` and `io.CopyN` given their documented semantics on that model.
-/

/-- `strings.HasPrefix s pre` (argument order: the prefix first). -/
def hasPrefixB : List Char → List Char → Bool
  | [], _ => true
  | _ :: _, [] => false
  | p :: ps, c :: cs => p == c && hasPrefixB ps cs

/-- `strings.Contains s sub`: `sub` occurs as a contiguous substring of `s`. -/
def containsSub (sub : List Char) : List Char → Bool
  | [] => hasPrefixB sub []
  | c :: rest => hasPrefixB sub (c :: rest) || containsSub sub rest

/-- `strings.TrimPrefix`. -/
def trimPrefixL (pre s : List Char) : List Char :=
  if hasPrefixB pre s = true then s.drop pre.length else s

/-- The backtracking loop of `filepath.Clean`'s `..` case: the buffer is held
reversed in `r`, `c` is the character most recently removed; characters are
removed while the buffer is longer than `dd` and the removed character is not
a separator. -/
def popLoop (dd : Nat) : Char → List Char → List Char
  | _, [] => []
  | c, h :: t => if dd < t.length + 1 ∧ ¬ c = '/' then popLoop dd h t else h :: t

/-- Remove the last segment (and its preceding separator) from the output
buffer `out`, never shrinking below index `dd` (Go: `out.w--` followed by the
backtracking loop). -/
def popSegment (dd : Nat) (out : List Char) : List Char :=
  match out.reverse with
  | [] => []
  | c :: r => (popLoop dd c r).reverse

/-- The main loop of Go's `filepath.Clean` (Unix). `out` is the output buffer,
`dd` the `dotdot` floor, `rooted` whether the input began with a separator.
`fuel` is always called with at least the input length, and each step consumes
at least one input character. -/
def cleanLoopF (rooted : Bool) : Nat → List Char → List Char → Nat → List Char
  | _, [], out, _ => out
  | 0, _ :: _, out, _ => out
  | fuel + 1, c :: rest, out, dd =>
    if c = '/' then
      cleanLoopF rooted fuel rest out dd
    else if c = '.' ∧ (rest = [] ∨ rest.head? = some '/') then
      cleanLoopF rooted fuel rest out dd
    else if c = '.' ∧ rest.head? = some '.' ∧ (rest.tail = [] ∨ rest.tail.head? = some '/') then
      if dd < out.length then
        cleanLoopF rooted fuel rest.tail (popSegment dd out) dd
      else if rooted = false then
        let out1 := (if ¬ out.length = 0 then out ++ ['/'] else out) ++ ['.', '.']
        cleanLoopF rooted fuel rest.tail out1 out1.length
      else
        cleanLoopF rooted fuel rest.tail out dd
    else
      let out1 :=
        if (rooted = true ∧ ¬ out.length = 1) ∨ (rooted = false ∧ ¬ out.length = 0) then
          out ++ ['/']
        else out
      cleanLoopF rooted fuel (rest.dropWhile (fun x => x != '/'))
        (out1 ++ c :: rest.takeWhile (fun x => x != '/')) dd

/-- `filepath.Clean` (Unix). The empty path cleans to `"."`; a rooted path
starts the machine with buffer `"/"` and floor `1`; an empty final buffer
yields `"."`. -/
def goClean (p : List Char) : List Char :=
  match p with
  | [] => ['.']
  | c :: rest =>
    let res :=
      if c = '/' then cleanLoopF true rest.length rest ['/'] 1
      else cleanLoopF false (rest.length + 1) (c :: rest) [] 0
    if res = [] then ['.'] else res

/-- `filepath.Join` on two elements (Unix): empty elements are skipped, the
rest is joined with a separator and cleaned. -/
def filepathJoin (a b : List Char) : List Char :=
  if a = [] then (if b = [] then [] else goClean b) else goClean (a ++ '/' :: b)

/-- `filepath.Abs` (Unix): an absolute path is cleaned, a relative path is
joined onto the working directory `cwd`. -/
def goAbs (cwd p : List Char) : List Char :=
  if p.head? = some '/' then goClean p else filepathJoin cwd p

/-- `filepath.Dir` (Unix): everything up to and including the final separator,
cleaned (`Clean("")` is `"."`). -/
def goDir (p : List Char) : List Char :=
  goClean ((p.reverse.dropWhile (fun c => c != '/')).reverse)

/-- The scan of `filepath.Ext`: walk the reversed path; stop empty at a
separator, and return from a dot onwards. -/
def extLoop (acc : List Char) : List Char → List Char
  | [] => []
  | c :: rest =>
    if c = '/' then [] else if c = '.' then c :: acc else extLoop (c :: acc) rest

/-- `filepath.Ext`: the suffix starting at the final dot of the last
element, empty if there is none. -/
def goExt (p : List Char) : List Char := extLoop [] p.reverse

/-- Split a path on `'/'` (the head/tail form of `strings.Split`): first
component and remaining components. -/
def splitOnSlashF : List Char → List Char × List (List Char)
  | [] => ([], [])
  | c :: rest =>
    let r := splitOnSlashF rest
    if c = '/' then ([], r.1 :: r.2) else (c :: r.1, r.2)

/-- All `'/'`-separated components of a path. -/
def splitOnSlash (p : List Char) : List (List Char) :=
  (splitOnSlashF p).1 :: (splitOnSlashF p).2

/-- The path has a parent-directory component `".."`. -/
def hasDotDotSegment (p : List Char) : Bool :=
  (splitOnSlash p).contains ['.', '.']

/-- A well-formed component of a canonical path: nonempty, separator-free,
and neither `"."` nor `".."`. -/
def CleanSeg (s : List Char) : Prop :=
  s ≠ [] ∧ '/' ∉ s ∧ s ≠ ['.'] ∧ s ≠ ['.', '.']

instance instDecCleanSeg (s : List Char) : Decidable (CleanSeg s) :=
  inferInstanceAs (Decidable (s ≠ [] ∧ '/' ∉ s ∧ s ≠ ['.'] ∧ s ≠ ['.', '.']))

/-- Interleave components with separators (no leading separator):
`joinSegs [a, b] = a ++ "/" ++ b`. -/
def joinSegs : List (List Char) → List Char
  | [] => []
  | [s] => s
  | s :: rest => s ++ '/' :: joinSegs rest

/-- Components each preceded by a separator: `slashSegs [a, b] = "/a/b"`. -/
def slashSegs : List (List Char) → List Char
  | [] => []
  | s :: rest => '/' :: (s ++ slashSegs rest)

/-- Appending components to the machine's output buffer exactly as the
rooted `Clean` machine does (a separator is prepended unless the buffer is
the bare root `"/"`). -/
def appendSegs (out : List Char) : List (List Char) → List Char
  | [] => out
  | s :: rest =>
    appendSegs (if ¬ out.length = 1 then out ++ '/' :: s else out ++ s) rest

/-- The two rejection kinds of `securePath` (`path traversal not allowed` and
`path outside of allowed directory`); `filepath.Abs` cannot fail in the model,
so no resolution-failure constructor is needed. -/
inductive PathError where
  | pathTraversal
  | outsideRoot
  deriving DecidableEq

instance instDecEqExcept {ε α : Type} [DecidableEq ε] [DecidableEq α] :
    DecidableEq (Except ε α) := fun a b =>
  match a, b with
  | .error e1, .error e2 =>
    if h : e1 = e2 then isTrue (by rw [h])
    else isFalse (fun hc => by injection hc with h2; exact h h2)
  | .error _, .ok _ => isFalse (fun hc => Except.noConfusion hc)
  | .ok _, .error _ => isFalse (fun hc => Except.noConfusion hc)
  | .ok a1, .ok a2 =>
    if h : a1 = a2 then isTrue (by rw [h])
    else isFalse (fun hc => by injection hc with h2; exact h h2)

/-- The `FileServer` configuration struct (the logger is an external
collaborator and is omitted). -/
structure FileServer where
  dataDir : List Char
  readOnly : Bool
  allowDelete : Bool
  maxFileSize : Int
  deriving DecidableEq

/-- `securePath` from `fileserver.go`: clean the URL path, reject on any
`".."` substring (or a `"/.."` string prefix), strip one leading separator,
join onto the data directory, and reject unless the absolute data directory is
a string prefix of the absolute joined path; the (non-canonicalized) joined
path is returned. `cwd` is the process working directory used by
`filepath.Abs`. -/
def securePath (srv : FileServer) (cwd urlPath : List Char) : Except PathError (List Char) :=
  let cleanedPath := goClean urlPath
  if containsSub ['.', '.'] cleanedPath || hasPrefixB ['/', '.', '.'] cleanedPath then
    .error .pathTraversal
  else
    let cleanedPath2 := trimPrefixL ['/'] cleanedPath
    let fullPath := filepathJoin srv.dataDir cleanedPath2
    let absDataDir := goAbs cwd srv.dataDir
    let absFullPath := goAbs cwd fullPath
    if hasPrefixB absDataDir absFullPath = false then
      .error .outsideRoot
    else
      .ok fullPath

/-- The canonical (absolutized) form of the joined candidate computed inside
`securePath` (the value the code's prefix check inspects). -/
def canonicalCandidate (srv : FileServer) (cwd urlPath : List Char) : List Char :=
  goAbs cwd (filepathJoin srv.dataDir (trimPrefixL ['/'] (goClean urlPath)))

/-- A filesystem entry: a regular file with its byte contents, or a
directory. -/
inductive FsEntry where
  | file (content : List Nat)
  | dir
  deriving DecidableEq

/-- The filesystem collaborator, modelled as an association list from
absolute paths to entries. -/
abbrev FileSys := List (List Char × FsEntry)

/-- `os.Stat`: look a path up. -/
def lookupFs (fs : FileSys) (p : List Char) : Option FsEntry :=
  match fs with
  | [] => none
  | (k, e) :: rest => if k = p then some e else lookupFs rest p

/-- `os.Remove` of an existing file path: drop the entry. -/
def removeFs (fs : FileSys) (p : List Char) : FileSys :=
  fs.filter (fun kv => kv.1 != p)

/-- Create or overwrite the entry at a path. -/
def insertFs (fs : FileSys) (p : List Char) (e : FsEntry) : FileSys :=
  (p, e) :: removeFs fs p

/-- `os.MkdirAll` on the parent directory: fails when the path is occupied by
a regular file, succeeds (creating the directory entry when missing)
otherwise. Ancestors above the immediate parent are kept abstract. -/
def mkdirAllFs (fs : FileSys) (d : List Char) : Option FileSys :=
  match lookupFs fs d with
  | some (.file _) => none
  | some .dir => some fs
  | none => some (insertFs fs d .dir)

/-- `os.Create`: truncates an existing regular file or creates a new empty
one; fails when the path is a directory. -/
def createFile (fs : FileSys) (p : List Char) : Option FileSys :=
  match lookupFs fs p with
  | some .dir => none
  | _ => some (insertFs fs p (.file []))

/-- The name of `k` as a direct child of directory `d`, when it is one. -/
def childNameOf (d k : List Char) : Option (List Char) :=
  if hasPrefixB (d ++ ['/']) k = true then
    let n := k.drop (d.length + 1)
    if n ≠ [] ∧ '/' ∉ n then some n else none
  else none

/-- `os.Remove` on a directory: fails (ENOTEMPTY) when anything lives below
it, otherwise drops the entry. -/
def removeDirFs (fs : FileSys) (d : List Char) : Option FileSys :=
  if fs.any (fun kv => hasPrefixB (d ++ ['/']) kv.1) then none
  else some (removeFs fs d)

/-- `os.RemoveAll`: drop the entry and everything below it. -/
def removeAllFs (fs : FileSys) (d : List Char) : FileSys :=
  fs.filter (fun kv => !(kv.1 == d || hasPrefixB (d ++ ['/']) kv.1))

/-- One entry of `os.ReadDir` together with the result of `entry.Info()`:
`infoOk` is false when `Info` returned an error (such an entry is skipped by
the listing loop); `size` and `modTime` are whatever the filesystem's stat
reported. -/
structure GoDirEntry where
  name : List Char
  isDir : Bool
  infoOk : Bool
  size : Int
  modTime : String
  deriving DecidableEq

/-- `os.ReadDir` on the association-list model: the direct children of `d`,
with a file's stat size equal to its byte length. -/
def readDirFs (fs : FileSys) (d : List Char) : List GoDirEntry :=
  fs.filterMap (fun kv =>
    match childNameOf d kv.1 with
    | some n =>
      some ⟨n, (match kv.2 with | .dir => true | .file _ => false), true,
            (match kv.2 with | .dir => 0 | .file c => (c.length : Int)), ""⟩
    | none => none)

/-- The `FileInfo` JSON object assembled for each listing entry. -/
structure FileInfo where
  name : List Char
  isDir : Bool
  size : Int
  modTime : String
  path : List Char
  mimeType : String
  deriving DecidableEq

/-- The `DirectoryResponse` JSON object. -/
structure DirectoryResponse where
  path : List Char
  files : List FileInfo
  totalSize : Int
  count : Nat
  deriving DecidableEq

/-- The structured outcome a handler hands to the transport layer: an error
response with its HTTP status and message, an upload response with status and
byte count, streamed file content, a directory listing, a delete
confirmation, or the bare 200 answered to OPTIONS. -/
inductive Outcome where
  | errorResp (status : Nat) (message : String)
  | uploadOk (status : Nat) (message : String) (path : List Char) (size : Int)
  | fileContent (path : List Char) (content : List Nat) (size : Int)
  | listing (resp : DirectoryResponse)
  | deleted (path : List Char)
  | optionsOk
  deriving DecidableEq

/-- An HTTP request as the handlers consume it: method, URL path, declared
`Content-Length` (`-1` when unknown), the actual body bytes, and the
`recursive` query flag of DELETE. -/
structure Request where
  method : String
  urlPath : List Char
  contentLength : Int
  body : List Nat
  recursive : Bool

/-- The body of `serveDirectory`'s loop for one readable entry:
`mimeByExt` is the external `mime.TypeByExtension` table (empty string when
unknown); the MIME type is attached to files only. -/
def mkFileInfo (relativePath : List Char) (mimeByExt : List Char → String)
    (e : GoDirEntry) : FileInfo :=
  ⟨e.name, e.isDir, e.size, e.modTime, filepathJoin relativePath e.name,
   if e.isDir then "" else mimeByExt (goExt e.name)⟩

/-- `serveDirectory`'s accumulation loop: entries whose `Info()` failed are
skipped; `totalSize` accumulates sizes of non-directories only. -/
def serveDirLoop (relativePath : List Char) (mimeByExt : List Char → String) :
    List GoDirEntry → List FileInfo × Int
  | [] => ([], 0)
  | e :: rest =>
    if e.infoOk = false then serveDirLoop relativePath mimeByExt rest
    else
      let fi := mkFileInfo relativePath mimeByExt e
      let r := serveDirLoop relativePath mimeByExt rest
      (fi :: r.1, (if e.isDir then 0 else e.size) + r.2)

/-- `serveDirectory` from `fileserver.go`: render the directory path relative
to the data directory (`"/"` when they match), assemble a `FileInfo` per
readable entry, sum file sizes, and count the assembled entries. On Unix the
separator is already `'/'`, so the `ReplaceAll` branch is a no-op. -/
def serveDirectory (srv : FileServer) (dirPath : List Char)
    (entries : List GoDirEntry) (mimeByExt : List Char → String) : Outcome :=
  let relativePath0 := trimPrefixL srv.dataDir dirPath
  let relativePath := if relativePath0 = [] then ['/'] else relativePath0
  let r := serveDirLoop relativePath mimeByExt entries
  .listing ⟨relativePath, r.1, r.2, r.1.length⟩

/-- `getRequest`: resolve the path, 404 when absent, delegate directories to
`serveDirectory`, and stream a file with its stat size otherwise. -/
def getRequest (srv : FileServer) (cwd : List Char) (fs : FileSys)
    (r : Request) (mimeByExt : List Char → String) : Outcome × FileSys :=
  match securePath srv cwd r.urlPath with
  | .error _ => (.errorResp 400 "Invalid path", fs)
  | .ok requestedFile =>
    match lookupFs fs requestedFile with
    | none => (.errorResp 404 "File not found", fs)
    | some .dir =>
      (serveDirectory srv requestedFile (readDirFs fs requestedFile) mimeByExt, fs)
    | some (.file content) =>
      (.fileContent requestedFile content (content.length : Int), fs)

/-- `putRequest`: reject when read-only; resolve; reject a declared length
over the limit; ensure the parent directory; record prior existence; create
(truncating); `io.CopyN` at most `maxFileSize + 1` bytes; on overflow remove
the partial file and answer 413, else answer 201 (created) or 200 (updated)
with the byte count. -/
def putRequest (srv : FileServer) (cwd : List Char) (fs : FileSys)
    (r : Request) : Outcome × FileSys :=
  if srv.readOnly then (.errorResp 403 "Server is read-only", fs)
  else
    match securePath srv cwd r.urlPath with
    | .error _ => (.errorResp 400 "Invalid path", fs)
    | .ok requestedFile =>
      if srv.maxFileSize < r.contentLength then
        (.errorResp 413 "File too large", fs)
      else
        match mkdirAllFs fs (goDir requestedFile) with
        | none => (.errorResp 500 "Cannot create directory", fs)
        | some fs1 =>
          let isNew := (lookupFs fs1 requestedFile).isNone
          match createFile fs1 requestedFile with
          | none => (.errorResp 500 "Cannot create file", fs1)
          | some fs2 =>
            let written := min r.body.length (srv.maxFileSize + 1).toNat
            let fs3 := insertFs fs2 requestedFile (.file (r.body.take written))
            if srv.maxFileSize < (written : Int) then
              (.errorResp 413 "File too large", removeFs fs3 requestedFile)
            else
              (.uploadOk (if isNew then 201 else 200)
                (if isNew then "File created successfully" else "File updated successfully")
                r.urlPath (written : Int), fs3)

/-- `deleteRequest`: reject when read-only or deletes are disabled; resolve;
404 when absent; directories are removed recursively when the flag is set and
only when empty otherwise; files are removed directly. -/
def deleteRequest (srv : FileServer) (cwd : List Char) (fs : FileSys)
    (r : Request) : Outcome × FileSys :=
  if srv.readOnly then (.errorResp 403 "Server is read-only", fs)
  else if ¬ srv.allowDelete then (.errorResp 403 "Delete operations not allowed", fs)
  else
    match securePath srv cwd r.urlPath with
    | .error _ => (.errorResp 400 "Invalid path", fs)
    | .ok requestedFile =>
      match lookupFs fs requestedFile with
      | none => (.errorResp 404 "File not found", fs)
      | some .dir =>
        if r.recursive then (.deleted r.urlPath, removeAllFs fs requestedFile)
        else
          match removeDirFs fs requestedFile with
          | none => (.errorResp 500 "Cannot delete", fs)
          | some fs2 => (.deleted r.urlPath, fs2)
      | some (.file _) => (.deleted r.urlPath, removeFs fs requestedFile)

/-- `ServeHTTP`: OPTIONS is answered 200 up front; GET, PUT and DELETE are
dispatched; every other method receives a 405 error response. -/
def ServeHTTP (srv : FileServer) (cwd : List Char) (fs : FileSys)
    (mimeByExt : List Char → String) (r : Request) : Outcome × FileSys :=
  if r.method = "OPTIONS" then (.optionsOk, fs)
  else if r.method = "GET" then getRequest srv cwd fs r mimeByExt
  else if r.method = "PUT" then putRequest srv cwd fs r
  else if r.method = "DELETE" then deleteRequest srv cwd fs r
  else (.errorResp 405 "Method not allowed", fs)

/-! ### Facts about the string primitives -/

theorem hasPrefixB_iff (pre s : List Char) :
    hasPrefixB pre s = true ↔ ∃ t, s = pre ++ t := by
  induction pre generalizing s with
  | nil => simp [hasPrefixB]
  | cons p ps ih =>
    cases s with
    | nil => simp [hasPrefixB]
    | cons c cs =>
      simp only [hasPrefixB, Bool.and_eq_true, beq_iff_eq, ih, List.cons_append,
        List.cons.injEq]
      constructor
      · rintro ⟨rfl, t, rfl⟩
        exact ⟨t, rfl, rfl⟩
      · rintro ⟨t, rfl, rfl⟩
        exact ⟨rfl, t, rfl⟩

theorem containsSub_iff (sub l : List Char) :
    containsSub sub l = true ↔ ∃ s t, l = s ++ sub ++ t := by
  induction l with
  | nil =>
    simp only [containsSub, hasPrefixB_iff]
    constructor
    · rintro ⟨t, h⟩
      exact ⟨[], t, by simpa using h⟩
    · rintro ⟨s, t, h⟩
      rcases List.append_eq_nil.1 (List.append_eq_nil.1 h.symm).1 with ⟨h1, h2⟩
      exact ⟨t, by simp [h2, (List.append_eq_nil.1 h.symm).2]⟩
  | cons c rest ih =>
    simp only [containsSub, Bool.or_eq_true, hasPrefixB_iff, ih]
    constructor
    · rintro (⟨t, h⟩ | ⟨s, t, rfl⟩)
      · exact ⟨[], t, by simpa using h⟩
      · exact ⟨c :: s, t, by simp⟩
    · rintro ⟨s, t, h⟩
      cases s with
      | nil => exact Or.inl ⟨t, by simpa using h⟩
      | cons c2 s2 =>
        simp only [List.cons_append, List.append_assoc] at h
        injection h with h1 h2
        exact Or.inr ⟨s2, t, by simpa [List.append_assoc] using h2⟩

theorem containsSub_append_right_false {sub u v : List Char}
    (h : containsSub sub (u ++ v) = false) : containsSub sub v = false := by
  by_contra hv
  rcases (containsSub_iff sub v).1 (eq_true_of_ne_false hv) with ⟨s, t, rfl⟩
  have htrue : containsSub sub (u ++ (s ++ sub ++ t)) = true :=
    (containsSub_iff _ _).2 ⟨u ++ s, t, by simp⟩
  rw [htrue] at h
  exact Bool.noConfusion h

theorem containsSub_append_left_false {sub u v : List Char}
    (h : containsSub sub (u ++ v) = false) : containsSub sub u = false := by
  by_contra hu
  rcases (containsSub_iff sub u).1 (eq_true_of_ne_false hu) with ⟨s, t, rfl⟩
  have htrue : containsSub sub (s ++ sub ++ t ++ v) = true :=
    (containsSub_iff _ _).2 ⟨s, t ++ v, by simp⟩
  rw [htrue] at h
  exact Bool.noConfusion h

theorem containsSub_pair_append {x y : Char} {p q : List Char}
    (h : containsSub [x, y] (p ++ q) = true) :
    containsSub [x, y] p = true ∨ containsSub [x, y] q = true ∨
      (p.getLast? = some x ∧ q.head? = some y) := by
  induction p with
  | nil => exact Or.inr (Or.inl (by simpa using h))
  | cons a p2 ih =>
    rw [List.cons_append] at h
    simp only [containsSub, Bool.or_eq_true] at h
    rcases h with h | h
    · rcases (hasPrefixB_iff _ _).1 h with ⟨t, ht⟩
      simp only [List.cons_append, List.nil_append, List.cons.injEq] at ht
      rcases ht with ⟨rfl, ht2⟩
      cases p2 with
      | nil =>
        refine Or.inr (Or.inr ⟨rfl, ?_⟩)
        simp only [List.nil_append] at ht2
        rw [ht2]
        rfl
      | cons b p3 =>
        rw [List.cons_append] at ht2
        injection ht2 with hb _
        refine Or.inl ?_
        apply (containsSub_iff _ _).2
        exact ⟨[], p3, by simp [hb]⟩
    · rcases ih h with h2 | h2 | ⟨h2, h3⟩
      · refine Or.inl ?_
        rcases (containsSub_iff _ _).1 h2 with ⟨s, t, rfl⟩
        exact (containsSub_iff _ _).2 ⟨a :: s, t, by simp⟩
      · exact Or.inr (Or.inl h2)
      · refine Or.inr (Or.inr ⟨?_, h3⟩)
        cases p2 with
        | nil => simp at h2
        | cons b p3 => rw [List.getLast?_cons_cons]; exact h2

theorem containsSub_dd_append_false {p q : List Char}
    (hp : containsSub ['.', '.'] p = false) (hq : containsSub ['.', '.'] q = false)
    (hqh : q = [] ∨ q.head? = some '/') :
    containsSub ['.', '.'] (p ++ q) = false := by
  by_contra h
  rcases containsSub_pair_append (eq_true_of_ne_false h) with h2 | h2 | ⟨h2, h3⟩
  · rw [h2] at hp; exact Bool.noConfusion hp
  · rw [h2] at hq; exact Bool.noConfusion hq
  · rcases hqh with rfl | hqh
    · exact Option.noConfusion h3
    · rw [hqh] at h3
      simp at h3

/-! ### The `Clean` machine: fuel, growth, and composition -/

theorem cleanLoopF_nil (rooted : Bool) (fuel : Nat) (out : List Char) (dd : Nat) :
    cleanLoopF rooted fuel [] out dd = out := by
  cases fuel <;> rfl

theorem length_dropWhile_slash_le (l : List Char) :
    (l.dropWhile (fun x => x != '/')).length ≤ l.length := by
  have h := congrArg List.length (List.takeWhile_append_dropWhile (fun x => x != '/') l)
  rw [List.length_append] at h
  omega

theorem cleanLoopF_fuel_eq (rooted : Bool) :
    ∀ (f1 : Nat) (cs : List Char) (f2 : Nat) (out : List Char) (dd : Nat),
      cs.length ≤ f1 → cs.length ≤ f2 →
      cleanLoopF rooted f1 cs out dd = cleanLoopF rooted f2 cs out dd := by
  intro f1
  induction f1 with
  | zero =>
    intro cs f2 out dd h1 _
    have hnil : cs = [] := List.length_eq_zero.1 (Nat.le_zero.1 h1)
    subst hnil
    simp [cleanLoopF_nil]
  | succ f ih =>
    intro cs f2 out dd h1 h2
    cases cs with
    | nil => simp [cleanLoopF_nil]
    | cons c rest =>
      cases f2 with
      | zero => simp at h2
      | succ f2 =>
        have htail := List.length_tail rest
        have hdw := length_dropWhile_slash_le rest
        simp only [List.length_cons] at h1 h2
        simp only [cleanLoopF]
        split_ifs
        all_goals exact ih _ f2 _ _ (by omega) (by omega)

theorem popLoop_append (dd : Nat) :
    ∀ (r : List Char) (c : Char), ∃ u, r = u ++ popLoop dd c r := by
  intro r
  induction r with
  | nil => intro c; exact ⟨[], rfl⟩
  | cons h t ih =>
    intro c
    simp only [popLoop]
    split_ifs with hcond
    · rcases ih h with ⟨u, hu⟩
      exact ⟨h :: u, by rw [List.cons_append, ← hu]⟩
    · exact ⟨[], rfl⟩

theorem popLoop_length (dd : Nat) :
    ∀ (r : List Char) (c : Char), dd ≤ r.length → dd ≤ (popLoop dd c r).length := by
  intro r
  induction r with
  | nil => intro c h; simpa [popLoop] using h
  | cons h t ih =>
    intro c hlen
    simp only [popLoop]
    split_ifs with hcond
    · exact ih h (by omega)
    · simpa using hlen

theorem popSegment_head (dd : Nat) (out : List Char) (h1 : 1 ≤ dd)
    (h2 : dd < out.length) (hh : out.head? = some '/') :
    (popSegment dd out).head? = some '/' ∧ dd ≤ (popSegment dd out).length := by
  have hne : out ≠ [] := by
    intro h; rw [h] at h2; simp at h2
  rcases hrev : out.reverse with _ | ⟨c, r⟩
  · exact absurd (by simpa using congrArg List.reverse hrev) hne
  · have hout : out = r.reverse ++ [c] := by
      have := congrArg List.reverse hrev
      simpa using this
    have hlr : out.length = r.length + 1 := by
      rw [hout]; simp
    have hdr : dd ≤ r.length := by omega
    have hpl := popLoop_length dd r c hdr
    rcases popLoop_append dd r c with ⟨u, hu⟩
    have hps : popSegment dd out = (popLoop dd c r).reverse := by
      simp only [popSegment, hrev]
    constructor
    · rcases hplrev : (popLoop dd c r).reverse with _ | ⟨a, as⟩
      · exfalso
        have hlen0 : (popLoop dd c r).length = 0 := by
          have := congrArg List.length hplrev
          simpa using this
        omega
      · have hr2 : r.reverse = a :: (as ++ u.reverse) := by
          rw [hu, List.reverse_append, hplrev]
          simp
        have houta : out.head? = some a := by
          rw [hout, hr2]
          simp
        rw [hh] at houta
        injection houta with ha
        simp [hps, hplrev, ← ha]
    · rw [hps]; simpa using hpl

theorem head?_append_of_ne_nil {l w : List Char} (h : l ≠ []) :
    (l ++ w).head? = l.head? := by
  cases l with
  | nil => exact absurd rfl h
  | cons a as => simp

theorem cleanLoopF_cons_sep (rooted : Bool) (f : Nat) (rest out : List Char) (dd : Nat) :
    cleanLoopF rooted (f + 1) ('/' :: rest) out dd = cleanLoopF rooted f rest out dd := by
  simp [cleanLoopF]

theorem cleanLoopF_cons_dot (rooted : Bool) (f : Nat) (rest out : List Char) (dd : Nat)
    (h : rest = [] ∨ rest.head? = some '/') :
    cleanLoopF rooted (f + 1) ('.' :: rest) out dd = cleanLoopF rooted f rest out dd := by
  simp only [cleanLoopF, true_and]
  rw [if_neg (by decide), if_pos h]

theorem not_dot_cond_of_head_dot {rest : List Char} (h1 : rest.head? = some '.') :
    ¬ (rest = [] ∨ rest.head? = some '/') := by
  rintro (h | h)
  · rw [h] at h1; simp at h1
  · rw [h] at h1; simp at h1

theorem cleanLoopF_cons_ddpop (rooted : Bool) (f : Nat) (rest out : List Char) (dd : Nat)
    (h1 : rest.head? = some '.') (h2 : rest.tail = [] ∨ rest.tail.head? = some '/')
    (h3 : dd < out.length) :
    cleanLoopF rooted (f + 1) ('.' :: rest) out dd =
      cleanLoopF rooted f rest.tail (popSegment dd out) dd := by
  simp only [cleanLoopF, true_and]
  rw [if_neg (by decide), if_neg (not_dot_cond_of_head_dot h1), if_pos ⟨h1, h2⟩, if_pos h3]

theorem cleanLoopF_cons_ddskip (f : Nat) (rest out : List Char) (dd : Nat)
    (h1 : rest.head? = some '.') (h2 : rest.tail = [] ∨ rest.tail.head? = some '/')
    (h3 : ¬ dd < out.length) :
    cleanLoopF true (f + 1) ('.' :: rest) out dd = cleanLoopF true f rest.tail out dd := by
  simp only [cleanLoopF, true_and]
  rw [if_neg (by decide), if_neg (not_dot_cond_of_head_dot h1), if_pos ⟨h1, h2⟩, if_neg h3,
    if_neg (by simp)]

theorem cleanLoopF_cons_seg (rooted : Bool) (f : Nat) (c : Char) (rest out : List Char)
    (dd : Nat) (hc1 : ¬ c = '/')
    (hc2 : ¬ (c = '.' ∧ (rest = [] ∨ rest.head? = some '/')))
    (hc3 : ¬ (c = '.' ∧ rest.head? = some '.' ∧ (rest.tail = [] ∨ rest.tail.head? = some '/'))) :
    cleanLoopF rooted (f + 1) (c :: rest) out dd =
      cleanLoopF rooted f (rest.dropWhile (fun x => x != '/'))
        ((if (rooted = true ∧ ¬ out.length = 1) ∨ (rooted = false ∧ ¬ out.length = 0) then
            out ++ ['/']
          else out) ++ c :: rest.takeWhile (fun x => x != '/')) dd := by
  simp only [cleanLoopF]
  rw [if_neg hc1, if_neg hc2, if_neg hc3]

theorem cleanLoopF_rooted_inv :
    ∀ (fuel : Nat) (cs out : List Char) (dd : Nat), cs.length ≤ fuel → 1 ≤ dd →
      dd ≤ out.length → out.head? = some '/' →
      (cleanLoopF true fuel cs out dd).head? = some '/' ∧
        dd ≤ (cleanLoopF true fuel cs out dd).length := by
  intro fuel
  induction fuel with
  | zero =>
    intro cs out dd h1 _ h3 h4
    have hnil : cs = [] := List.length_eq_zero.1 (Nat.le_zero.1 h1)
    subst hnil
    exact ⟨by simpa [cleanLoopF_nil] using h4, by simpa [cleanLoopF_nil] using h3⟩
  | succ f ih =>
    intro cs out dd h1 hdd hlen hh
    cases cs with
    | nil => exact ⟨by simpa [cleanLoopF_nil] using hh, by simpa [cleanLoopF_nil] using hlen⟩
    | cons c rest =>
      have htail := List.length_tail rest
      have hdw := length_dropWhile_slash_le rest
      simp only [List.length_cons] at h1
      have hne : out ≠ [] := by
        intro h
        rw [h] at hlen
        simp at hlen
        omega
      by_cases hc : c = '/'
      · subst hc
        rw [cleanLoopF_cons_sep]
        exact ih rest out dd (by omega) hdd hlen hh
      by_cases hdot : c = '.' ∧ (rest = [] ∨ rest.head? = some '/')
      · rcases hdot with ⟨rfl, hrest⟩
        rw [cleanLoopF_cons_dot _ _ _ _ _ hrest]
        exact ih rest out dd (by omega) hdd hlen hh
      by_cases hddot : c = '.' ∧ rest.head? = some '.' ∧
          (rest.tail = [] ∨ rest.tail.head? = some '/')
      · obtain ⟨hceq, hr1, hr2⟩ := hddot
        subst hceq
        by_cases hpop : dd < out.length
        · rw [cleanLoopF_cons_ddpop _ _ _ _ _ hr1 hr2 hpop]
          rcases popSegment_head dd out hdd hpop hh with ⟨ph, pl⟩
          exact ih rest.tail _ dd (by omega) hdd pl ph
        · rw [cleanLoopF_cons_ddskip _ _ _ _ hr1 hr2 hpop]
          exact ih rest.tail out dd (by omega) hdd hlen hh
      · rw [cleanLoopF_cons_seg true f c rest out dd hc hdot hddot]
        by_cases hcond : (true = true ∧ ¬ out.length = 1) ∨ (true = false ∧ ¬ out.length = 0)
        · rw [if_pos hcond]
          refine ih _ _ dd (by omega) hdd ?_ ?_
          · rw [List.length_append, List.length_append]
            omega
          · rw [List.append_assoc, head?_append_of_ne_nil hne]
            exact hh
        · rw [if_neg hcond]
          refine ih _ _ dd (by omega) hdd ?_ ?_
          · rw [List.length_append]
            omega
          · rw [head?_append_of_ne_nil hne]
            exact hh

theorem containsSub_dd_slash_cons (x : List Char) :
    containsSub ['.', '.'] ('/' :: x) = containsSub ['.', '.'] x := by
  simp [containsSub, hasPrefixB]

theorem cleanLoopF_growth :
    ∀ (fuel : Nat) (cs out : List Char) (dd : Nat), cs.length ≤ fuel →
      containsSub ['.', '.'] cs = false → 2 ≤ out.length →
      cleanLoopF true fuel cs out dd = out ∨
        ∃ t, cleanLoopF true fuel cs out dd = out ++ '/' :: t ∧
          containsSub ['.', '.'] ('/' :: t) = false := by
  intro fuel
  induction fuel with
  | zero =>
    intro cs out dd h1 _ _
    have hnil : cs = [] := List.length_eq_zero.1 (Nat.le_zero.1 h1)
    subst hnil
    exact Or.inl (cleanLoopF_nil _ _ _ _)
  | succ f ih =>
    intro cs out dd h1 hno hlen
    cases cs with
    | nil => exact Or.inl (cleanLoopF_nil _ _ _ _)
    | cons c rest =>
      have htail := List.length_tail rest
      have hdw := length_dropWhile_slash_le rest
      simp only [List.length_cons] at h1
      rcases Bool.or_eq_false_iff.1 (by simpa [containsSub] using hno) with ⟨hnop, hnorest⟩
      have hne : out ≠ [] := by
        intro h
        rw [h] at hlen
        simp at hlen
      by_cases hc : c = '/'
      · subst hc
        rw [cleanLoopF_cons_sep]
        exact ih rest out dd (by omega) hnorest hlen
      by_cases hdot : c = '.' ∧ (rest = [] ∨ rest.head? = some '/')
      · rcases hdot with ⟨rfl, hrest⟩
        rw [cleanLoopF_cons_dot _ _ _ _ _ hrest]
        exact ih rest out dd (by omega) hnorest hlen
      by_cases hddot : c = '.' ∧ rest.head? = some '.' ∧
          (rest.tail = [] ∨ rest.tail.head? = some '/')
      · exfalso
        obtain ⟨hceq, hr1, -⟩ := hddot
        subst hceq
        cases rest with
        | nil => simp at hr1
        | cons b rest2 =>
          have hb : b = '.' := by simpa using hr1
          subst hb
          simp [hasPrefixB] at hnop
      · rw [cleanLoopF_cons_seg true f c rest out dd hc hdot hddot,
          if_pos (Or.inl ⟨rfl, by omega⟩)]
        have hsplit := List.takeWhile_append_dropWhile (fun x => x != '/') rest
        have hnodw : containsSub ['.', '.'] (rest.dropWhile (fun x => x != '/')) = false := by
          have h2 : containsSub ['.', '.'] (rest.takeWhile (fun x => x != '/') ++
              rest.dropWhile (fun x => x != '/')) = false := by
            rw [hsplit]
            exact hnorest
          exact containsSub_append_right_false h2
        have hnotw : containsSub ['.', '.'] (c :: rest.takeWhile (fun x => x != '/')) = false := by
          have h2 : containsSub ['.', '.'] ((c :: rest.takeWhile (fun x => x != '/')) ++
              rest.dropWhile (fun x => x != '/')) = false := by
            rw [List.cons_append, hsplit]
            exact hno
          exact containsSub_append_left_false h2
        have hassoc : (out ++ ['/']) ++ c :: rest.takeWhile (fun x => x != '/') =
            out ++ '/' :: (c :: rest.takeWhile (fun x => x != '/')) := by
          simp
        rw [hassoc]
        rcases ih (rest.dropWhile (fun x => x != '/'))
            (out ++ '/' :: (c :: rest.takeWhile (fun x => x != '/'))) dd (by omega) hnodw
            (by rw [List.length_append]; simp; omega) with hrec | ⟨t, hrec, hnot⟩
        · refine Or.inr ⟨c :: rest.takeWhile (fun x => x != '/'), hrec, ?_⟩
          rw [containsSub_dd_slash_cons]
          exact hnotw
        · refine Or.inr ⟨(c :: rest.takeWhile (fun x => x != '/')) ++ '/' :: t, ?_, ?_⟩
          · rw [hrec]
            simp
          · have hq : containsSub ['.', '.']
                (('/' :: (c :: rest.takeWhile (fun x => x != '/'))) ++ ('/' :: t)) = false := by
              refine containsSub_dd_append_false ?_ hnot (Or.inr rfl)
              rw [containsSub_dd_slash_cons]
              exact hnotw
            rw [List.cons_append] at hq
            exact hq

theorem takeWhile_slash_of_head {X : List Char} (hX : X = [] ∨ X.head? = some '/') :
    X.takeWhile (fun x => x != '/') = [] := by
  rcases hX with rfl | hX
  · rfl
  · cases X with
    | nil => rfl
    | cons a as =>
      have ha : a = '/' := by simpa using hX
      subst ha
      simp [List.takeWhile_cons]

theorem dropWhile_slash_of_head {X : List Char} (hX : X = [] ∨ X.head? = some '/') :
    X.dropWhile (fun x => x != '/') = X := by
  rcases hX with rfl | hX
  · rfl
  · cases X with
    | nil => rfl
    | cons a as =>
      have ha : a = '/' := by simpa using hX
      subst ha
      simp [List.dropWhile_cons]

theorem slash_free_pos {s2 : List Char} (hs : '/' ∉ s2) :
    ∀ a ∈ s2, (fun x => x != '/') a = true := by
  intro a ha
  simp only [bne_iff_ne, ne_eq]
  intro h
  exact hs (h ▸ ha)

theorem takeWhile_slash_append {s2 X : List Char} (hs : '/' ∉ s2)
    (hX : X = [] ∨ X.head? = some '/') :
    (s2 ++ X).takeWhile (fun x => x != '/') = s2 := by
  rw [List.takeWhile_append_of_pos (slash_free_pos hs), takeWhile_slash_of_head hX,
    List.append_nil]

theorem dropWhile_slash_append {s2 X : List Char} (hs : '/' ∉ s2)
    (hX : X = [] ∨ X.head? = some '/') :
    (s2 ++ X).dropWhile (fun x => x != '/') = X := by
  rw [List.dropWhile_append_of_pos (slash_free_pos hs), dropWhile_slash_of_head hX]

theorem cleanLoopF_segs :
    ∀ (segs : List (List Char)), (∀ s, s ∈ segs → CleanSeg s) →
      ∀ (ys out : List Char) (dd : Nat), (ys = [] ∨ ys.head? = some '/') →
      ∀ fuel, (joinSegs segs ++ ys).length ≤ fuel →
      cleanLoopF true fuel (joinSegs segs ++ ys) out dd =
        cleanLoopF true ys.length ys (appendSegs out segs) dd := by
  intro segs
  induction segs with
  | nil =>
    intro _ ys out dd _ fuel hfuel
    simp only [joinSegs, List.nil_append] at hfuel ⊢
    exact cleanLoopF_fuel_eq true fuel ys ys.length out dd hfuel (Nat.le_refl _)
  | cons s rest ih =>
    intro hsegs ys out dd hys fuel hfuel
    have hcs : CleanSeg s := hsegs s (List.mem_cons_self _ _)
    obtain ⟨hne, hnosl, hnd, hndd⟩ := hcs
    rcases s with _ | ⟨c, s2⟩
    · exact absurd rfl hne
    have hcslash : ¬ c = '/' := fun h => hnosl (h ▸ List.mem_cons_self _ _)
    have hs2slash : '/' ∉ s2 := fun h => hnosl (List.mem_cons_of_mem _ h)
    -- the input splits as c :: (s2 ++ X) with X empty or starting with a separator
    have hjoin : ∃ X, joinSegs ((c :: s2) :: rest) ++ ys = c :: (s2 ++ X) ∧
        (X = [] ∨ X.head? = some '/') ∧
        (rest = [] → X = ys) ∧
        (∀ r rs, rest = r :: rs → X = '/' :: (joinSegs (r :: rs) ++ ys)) := by
      cases rest with
      | nil =>
        exact ⟨ys, by simp [joinSegs], hys, fun _ => rfl, fun r rs h => List.noConfusion h⟩
      | cons r rs =>
        refine ⟨'/' :: (joinSegs (r :: rs) ++ ys), ?_, Or.inr rfl, fun h => List.noConfusion h,
          fun r2 rs2 h => ?_⟩
        · simp [joinSegs]
        · injection h with h1 h2
          subst h1; subst h2; rfl
    obtain ⟨X, hX, hXhead, hXnil, hXcons⟩ := hjoin
    rw [hX]
    cases fuel with
    | zero =>
      exfalso
      rw [hX] at hfuel
      simp at hfuel
    | succ f =>
      have hdot : ¬ (c = '.' ∧ (s2 ++ X = [] ∨ (s2 ++ X).head? = some '/')) := by
        rintro ⟨rfl, hcond⟩
        cases s2 with
        | nil =>
          exact hnd rfl
        | cons d s3 =>
          have hd : ¬ d = '/' := fun h => hs2slash (h ▸ List.mem_cons_self _ _)
          rcases hcond with hcond | hcond
          · simp at hcond
          · simp at hcond
            exact hd hcond
      have hddot : ¬ (c = '.' ∧ (s2 ++ X).head? = some '.' ∧
          ((s2 ++ X).tail = [] ∨ (s2 ++ X).tail.head? = some '/')) := by
        rintro ⟨rfl, hhead, htl⟩
        cases s2 with
        | nil =>
          exact (not_dot_cond_of_head_dot hhead) hXhead
        | cons d s3 =>
          have hd : d = '.' := by simpa using hhead
          subst hd
          cases s3 with
          | nil => exact hndd rfl
          | cons e s4 =>
            have he : ¬ e = '/' := fun h =>
              hs2slash (h ▸ List.mem_cons_of_mem _ (List.mem_cons_self _ _))
            rcases htl with htl | htl
            · simp at htl
            · simp at htl
              exact he htl
      rw [cleanLoopF_cons_seg true f c (s2 ++ X) out dd hcslash hdot hddot]
      rw [takeWhile_slash_append hs2slash hXhead, dropWhile_slash_append hs2slash hXhead]
      have hbuf : (if (true = true ∧ ¬ out.length = 1) ∨ (true = false ∧ ¬ out.length = 0) then
          out ++ ['/'] else out) ++ c :: s2 =
          (if ¬ out.length = 1 then out ++ '/' :: (c :: s2) else out ++ (c :: s2)) := by
        by_cases hone : out.length = 1
        · rw [if_neg (by simp [hone]), if_neg (by simp [hone])]
        · rw [if_pos (Or.inl ⟨rfl, hone⟩), if_pos hone]
          simp
      rw [hbuf]
      have hstep : appendSegs out ((c :: s2) :: rest) =
          appendSegs (if ¬ out.length = 1 then out ++ '/' :: (c :: s2) else out ++ (c :: s2))
            rest := rfl
      rw [hstep]
      rw [hX] at hfuel
      simp only [List.length_cons, List.length_append] at hfuel
      cases rest with
      | nil =>
        rw [hXnil rfl]
        refine cleanLoopF_fuel_eq true f ys ys.length _ dd ?_ (Nat.le_refl _)
        have := hXnil rfl
        subst this
        omega
      | cons r rs =>
        rw [hXcons r rs rfl]
        have hXlen : ('/' :: (joinSegs (r :: rs) ++ ys)).length ≤ f := by
          rw [hXcons r rs rfl] at hfuel
          simp only [List.length_cons, List.length_append] at hfuel ⊢
          omega
        cases f with
        | zero =>
          exfalso
          simp at hXlen
        | succ f2 =>
          rw [cleanLoopF_cons_sep]
          refine ih (fun t ht => hsegs t (List.mem_cons_of_mem _ ht)) ys _ dd hys f2 ?_
          simp at hXlen ⊢
          omega

theorem joinSegs_eq_slash : ∀ (s : List Char) (rest : List (List Char)),
    joinSegs (s :: rest) = s ++ slashSegs rest := by
  intro s rest
  induction rest generalizing s with
  | nil => simp [joinSegs, slashSegs]
  | cons r rs ih =>
    show joinSegs (s :: r :: rs) = s ++ slashSegs (r :: rs)
    have h1 : joinSegs (s :: r :: rs) = s ++ '/' :: joinSegs (r :: rs) := rfl
    rw [h1, ih r]
    simp [slashSegs]

theorem appendSegs_big : ∀ (segs : List (List Char)) (out : List Char), 2 ≤ out.length →
    appendSegs out segs = out ++ slashSegs segs := by
  intro segs
  induction segs with
  | nil => intro out _; simp [appendSegs, slashSegs]
  | cons s rest ih =>
    intro out hlen
    show appendSegs (if ¬ out.length = 1 then out ++ '/' :: s else out ++ s) rest = _
    rw [if_pos (by omega)]
    rw [ih (out ++ '/' :: s) (by simp; omega)]
    simp [slashSegs]

theorem appendSegs_root (segs : List (List Char)) (hsegs : ∀ s, s ∈ segs → CleanSeg s) :
    appendSegs ['/'] segs = '/' :: joinSegs segs := by
  cases segs with
  | nil => rfl
  | cons s rest =>
    have hs : CleanSeg s := hsegs s (List.mem_cons_self _ _)
    show appendSegs (if ¬ (['/'] : List Char).length = 1 then ['/'] ++ '/' :: s
      else ['/'] ++ s) rest = _
    rw [if_neg (by simp)]
    have hlen : 2 ≤ (['/'] ++ s : List Char).length := by
      cases hsnil : s with
      | nil => exact absurd hsnil hs.1
      | cons a as => simp
    rw [appendSegs_big rest _ hlen, joinSegs_eq_slash]
    simp

theorem root_len_two (segs : List (List Char)) (hsegs : ∀ s, s ∈ segs → CleanSeg s)
    (hne : segs ≠ []) : 2 ≤ ('/' :: joinSegs segs).length := by
  cases segs with
  | nil => exact absurd rfl hne
  | cons s rest =>
    have hs : CleanSeg s := hsegs s (List.mem_cons_self _ _)
    rw [joinSegs_eq_slash]
    cases hsnil : s with
    | nil => exact absurd hsnil hs.1
    | cons a as => simp

theorem goClean_root (segs : List (List Char)) (hsegs : ∀ s, s ∈ segs → CleanSeg s) :
    goClean ('/' :: joinSegs segs) = '/' :: joinSegs segs := by
  have h1 : goClean ('/' :: joinSegs segs) =
      (if cleanLoopF true (joinSegs segs).length (joinSegs segs) ['/'] 1 = [] then ['.']
       else cleanLoopF true (joinSegs segs).length (joinSegs segs) ['/'] 1) := by
    simp [goClean]
  have h2 : cleanLoopF true (joinSegs segs).length (joinSegs segs) ['/'] 1 =
      appendSegs ['/'] segs := by
    have h3 := cleanLoopF_segs segs hsegs [] ['/'] 1 (Or.inl rfl)
      (joinSegs segs).length (by simp)
    rw [List.append_nil] at h3
    rw [h3]
    exact cleanLoopF_nil _ _ _ _
  rw [h1, h2, appendSegs_root segs hsegs]
  simp

theorem goClean_root_slash (segs : List (List Char)) (hsegs : ∀ s, s ∈ segs → CleanSeg s)
    (s : List Char) :
    goClean (('/' :: joinSegs segs) ++ '/' :: s) =
      cleanLoopF true s.length s ('/' :: joinSegs segs) 1 := by
  have hinput : ('/' :: joinSegs segs) ++ '/' :: s = '/' :: (joinSegs segs ++ '/' :: s) := by
    simp
  have h1 : goClean ('/' :: (joinSegs segs ++ '/' :: s)) =
      (if cleanLoopF true (joinSegs segs ++ '/' :: s).length (joinSegs segs ++ '/' :: s)
          ['/'] 1 = [] then ['.']
       else cleanLoopF true (joinSegs segs ++ '/' :: s).length (joinSegs segs ++ '/' :: s)
          ['/'] 1) := by
    simp [goClean]
  have h2 : cleanLoopF true (joinSegs segs ++ '/' :: s).length (joinSegs segs ++ '/' :: s)
      ['/'] 1 = cleanLoopF true s.length s ('/' :: joinSegs segs) 1 := by
    have h3 := cleanLoopF_segs segs hsegs ('/' :: s) ['/'] 1 (Or.inr rfl)
      (joinSegs segs ++ '/' :: s).length (Nat.le_refl _)
    rw [h3, appendSegs_root segs hsegs]
    show cleanLoopF true (s.length + 1) ('/' :: s) _ 1 = _
    rw [cleanLoopF_cons_sep]
  have hroot1 : (1 : Nat) ≤ ('/' :: joinSegs segs).length := by simp
  have hinv := cleanLoopF_rooted_inv s.length s ('/' :: joinSegs segs) 1 (Nat.le_refl _)
    (Nat.le_refl _) hroot1 rfl
  have hne2 : cleanLoopF true s.length s ('/' :: joinSegs segs) 1 ≠ [] := by
    intro hemp
    rw [hemp] at hinv
    simp at hinv
  rw [hinput, h1, h2, if_neg hne2]

theorem fullPath_containment (segs : List (List Char)) (hsegs : ∀ s, s ∈ segs → CleanSeg s)
    (hne : segs ≠ []) (s : List Char) (hno : containsSub ['.', '.'] s = false) :
    filepathJoin ('/' :: joinSegs segs) s = '/' :: joinSegs segs ∨
      ∃ t, filepathJoin ('/' :: joinSegs segs) s = ('/' :: joinSegs segs) ++ '/' :: t ∧
        containsSub ['.', '.'] ('/' :: t) = false := by
  have hroot2 := root_len_two segs hsegs hne
  have hj : filepathJoin ('/' :: joinSegs segs) s =
      goClean (('/' :: joinSegs segs) ++ '/' :: s) := by
    simp only [filepathJoin]
    rw [if_neg (by simp)]
  rw [hj, goClean_root_slash segs hsegs s]
  exact cleanLoopF_growth s.length s _ 1 (Nat.le_refl _) hno hroot2

theorem containsSub_drop_false {sub l : List Char} (n : Nat)
    (h : containsSub sub l = false) : containsSub sub (l.drop n) = false := by
  have h2 : containsSub sub (l.take n ++ l.drop n) = false := by
    rw [List.take_append_drop]
    exact h
  exact containsSub_append_right_false h2

theorem trimPrefixL_no_dotdot {l : List Char}
    (h : containsSub ['.', '.'] l = false) :
    containsSub ['.', '.'] (trimPrefixL ['/'] l) = false := by
  unfold trimPrefixL
  split_ifs with hp
  · exact containsSub_drop_false _ h
  · exact h

theorem splitOnSlashF_decomp : ∀ p : List Char,
    (∃ t, p = (splitOnSlashF p).1 ++ t) ∧
      ∀ x, x ∈ (splitOnSlashF p).2 → ∃ s t, p = s ++ x ++ t := by
  intro p
  induction p with
  | nil => exact ⟨⟨[], rfl⟩, by simp [splitOnSlashF]⟩
  | cons c rest ih =>
    obtain ⟨⟨t0, ht0⟩, hsnd⟩ := ih
    by_cases hc : c = '/'
    · subst hc
      constructor
      · refine ⟨'/' :: rest, ?_⟩
        simp [splitOnSlashF]
      · intro x hx
        simp only [splitOnSlashF, if_pos rfl] at hx
        rcases List.mem_cons.1 hx with rfl | hx2
        · refine ⟨['/'], t0, ?_⟩
          simp only [List.cons_append, List.nil_append, List.append_assoc]
          exact congrArg (List.cons '/') ht0
        · rcases hsnd x hx2 with ⟨s, t, hst⟩
          refine ⟨'/' :: s, t, ?_⟩
          have hst2 : rest = s ++ (x ++ t) := by simpa [List.append_assoc] using hst
          simp only [List.cons_append, List.append_assoc]
          exact congrArg (List.cons '/') hst2
    · constructor
      · refine ⟨t0, ?_⟩
        have h1 : (splitOnSlashF (c :: rest)).1 = c :: (splitOnSlashF rest).1 := by
          simp [splitOnSlashF, if_neg hc]
        rw [h1, List.cons_append]
        exact congrArg (List.cons c) ht0
      · intro x hx
        simp only [splitOnSlashF, if_neg hc] at hx
        rcases hsnd x hx with ⟨s, t, hst⟩
        refine ⟨c :: s, t, ?_⟩
        have hst2 : rest = s ++ (x ++ t) := by simpa [List.append_assoc] using hst
        simp only [List.cons_append, List.append_assoc]
        exact congrArg (List.cons c) hst2

theorem contains_of_dotdot_segment {p : List Char} (h : hasDotDotSegment p = true) :
    containsSub ['.', '.'] p = true := by
  have hmem : (['.', '.'] : List Char) ∈ splitOnSlash p := by
    simpa [hasDotDotSegment] using h
  obtain ⟨⟨t0, ht0⟩, hsnd⟩ := splitOnSlashF_decomp p
  rcases List.mem_cons.1 hmem with heq | hmem2
  · exact (containsSub_iff _ _).2 ⟨[], t0, by rw [← heq] at ht0; simpa using ht0⟩
  · rcases hsnd _ hmem2 with ⟨s, t, hst⟩
    exact (containsSub_iff _ _).2 ⟨s, t, hst⟩

theorem securePath_eq_of_check_true (srv : FileServer) (cwd url : List Char)
    (h : (containsSub ['.', '.'] (goClean url) ||
      hasPrefixB ['/', '.', '.'] (goClean url)) = true) :
    securePath srv cwd url = .error .pathTraversal := by
  simp only [securePath]
  rw [if_pos h]

theorem securePath_eq_of_check_false (srv : FileServer) (cwd url : List Char)
    (h : (containsSub ['.', '.'] (goClean url) ||
      hasPrefixB ['/', '.', '.'] (goClean url)) = false) :
    securePath srv cwd url =
      (if hasPrefixB (goAbs cwd srv.dataDir)
          (goAbs cwd (filepathJoin srv.dataDir (trimPrefixL ['/'] (goClean url)))) = false
       then .error .outsideRoot
       else .ok (filepathJoin srv.dataDir (trimPrefixL ['/'] (goClean url)))) := by
  simp only [securePath]
  rw [if_neg (by simp [h])]

theorem securePath_ok_eq {srv : FileServer} {cwd url p : List Char}
    (hok : securePath srv cwd url = .ok p) :
    p = filepathJoin srv.dataDir (trimPrefixL ['/'] (goClean url)) ∧
      (containsSub ['.', '.'] (goClean url) ||
        hasPrefixB ['/', '.', '.'] (goClean url)) = false := by
  by_cases hchk : (containsSub ['.', '.'] (goClean url) ||
      hasPrefixB ['/', '.', '.'] (goClean url)) = true
  · rw [securePath_eq_of_check_true srv cwd url hchk] at hok
    exact absurd hok (by simp)
  · have hfalse : (containsSub ['.', '.'] (goClean url) ||
        hasPrefixB ['/', '.', '.'] (goClean url)) = false := by
      simpa using hchk
    rw [securePath_eq_of_check_false srv cwd url hfalse] at hok
    split_ifs at hok with hpre
    injection hok with hok2
    exact ⟨hok2.symm, hfalse⟩

theorem canonicalCandidate_containment (segs : List (List Char)) (srv : FileServer)
    (cwd url : List Char) (hroot : srv.dataDir = '/' :: joinSegs segs)
    (hsegs : ∀ s, s ∈ segs → CleanSeg s) (hne : segs ≠ [])
    (hchk : (containsSub ['.', '.'] (goClean url) ||
      hasPrefixB ['/', '.', '.'] (goClean url)) = false) :
    canonicalCandidate srv cwd url = srv.dataDir ∨
      ∃ t, canonicalCandidate srv cwd url = srv.dataDir ++ '/' :: t := by
  have hnos : containsSub ['.', '.'] (trimPrefixL ['/'] (goClean url)) = false :=
    trimPrefixL_no_dotdot (Bool.or_eq_false_iff.1 hchk).1
  have hcc : canonicalCandidate srv cwd url =
      goAbs cwd (filepathJoin srv.dataDir (trimPrefixL ['/'] (goClean url))) := rfl
  rcases fullPath_containment segs hsegs hne (trimPrefixL ['/'] (goClean url)) hnos
    with h | ⟨t, h, hnot⟩
  · left
    rw [hcc, hroot, h]
    simp only [goAbs]
    rw [if_pos (show ('/' :: joinSegs segs).head? = some '/' from rfl)]
    exact goClean_root segs hsegs
  · have hhead : (('/' :: joinSegs segs) ++ '/' :: t).head? = some '/' := by
      rw [List.cons_append]
      rfl
    have hval : goAbs cwd (('/' :: joinSegs segs) ++ '/' :: t) =
        cleanLoopF true t.length t ('/' :: joinSegs segs) 1 := by
      simp only [goAbs]
      rw [if_pos hhead]
      exact goClean_root_slash segs hsegs t
    have hnot2 : containsSub ['.', '.'] t = false := by
      rw [containsSub_dd_slash_cons] at hnot
      exact hnot
    rcases cleanLoopF_growth t.length t ('/' :: joinSegs segs) 1 (Nat.le_refl _) hnot2
      (root_len_two segs hsegs hne) with h2 | ⟨t2, h2, -⟩
    · left
      rw [hcc, hroot, h, hval, h2]
    · right
      refine ⟨t2, ?_⟩
      rw [hcc, hroot, h, hval, h2]

/-! ### Facts about the filesystem model and the handlers -/

theorem lookupFs_insert_self (fs : FileSys) (p : List Char) (e : FsEntry) :
    lookupFs (insertFs fs p e) p = some e := by
  simp [insertFs, lookupFs]

theorem lookupFs_remove_self (fs : FileSys) (p : List Char) :
    lookupFs (removeFs fs p) p = none := by
  induction fs with
  | nil => rfl
  | cons kv rest ih =>
    by_cases h : kv.1 = p
    · have heq : removeFs (kv :: rest) p = removeFs rest p := by
        simp [removeFs, List.filter_cons, h]
      rw [heq]
      exact ih
    · have heq : removeFs (kv :: rest) p = kv :: removeFs rest p := by
        simp [removeFs, List.filter_cons, bne_iff_ne, h]
      rw [heq]
      simpa [lookupFs, h] using ih

theorem putRequest_readonly (srv : FileServer) (cwd : List Char) (fs : FileSys)
    (r : Request) (hro : srv.readOnly = true) :
    putRequest srv cwd fs r = (.errorResp 403 "Server is read-only", fs) := by
  simp [putRequest, hro]

theorem putRequest_precheck (srv : FileServer) (cwd : List Char) (fs : FileSys)
    (r : Request) (p : List Char) (hro : srv.readOnly = false)
    (hsp : securePath srv cwd r.urlPath = .ok p)
    (hcl : srv.maxFileSize < r.contentLength) :
    putRequest srv cwd fs r = (.errorResp 413 "File too large", fs) := by
  simp only [putRequest, hro, Bool.false_eq_true, if_false, hsp]
  rw [if_pos hcl]

theorem putRequest_success (srv : FileServer) (cwd : List Char) (fs fs1 fs2 : FileSys)
    (r : Request) (p : List Char) (hro : srv.readOnly = false)
    (hsp : securePath srv cwd r.urlPath = .ok p)
    (hcl : ¬ srv.maxFileSize < r.contentLength)
    (hmk : mkdirAllFs fs (goDir p) = some fs1)
    (hcr : createFile fs1 p = some fs2)
    (hbody : (r.body.length : Int) ≤ srv.maxFileSize)
    (hmax : 0 ≤ srv.maxFileSize) :
    putRequest srv cwd fs r =
      (.uploadOk (if (lookupFs fs1 p).isNone then 201 else 200)
        (if (lookupFs fs1 p).isNone then "File created successfully"
         else "File updated successfully")
        r.urlPath (r.body.length : Int),
       insertFs fs2 p (.file r.body)) := by
  have hmin : min r.body.length (srv.maxFileSize + 1).toNat = r.body.length := by
    omega
  simp only [putRequest, hro, Bool.false_eq_true, if_false, hsp, hmk, hcr]
  rw [if_neg hcl, hmin, if_neg (by omega), List.take_length]

theorem putRequest_toolarge (srv : FileServer) (cwd : List Char) (fs fs1 fs2 : FileSys)
    (r : Request) (p : List Char) (hro : srv.readOnly = false)
    (hsp : securePath srv cwd r.urlPath = .ok p)
    (hcl : ¬ srv.maxFileSize < r.contentLength)
    (hmk : mkdirAllFs fs (goDir p) = some fs1)
    (hcr : createFile fs1 p = some fs2)
    (hbody : srv.maxFileSize < (r.body.length : Int))
    (hmax : 0 ≤ srv.maxFileSize) :
    putRequest srv cwd fs r =
      (.errorResp 413 "File too large",
       removeFs (insertFs fs2 p (.file (r.body.take (srv.maxFileSize + 1).toNat))) p) := by
  have hmin : min r.body.length (srv.maxFileSize + 1).toNat = (srv.maxFileSize + 1).toNat := by
    omega
  simp only [putRequest, hro, Bool.false_eq_true, if_false, hsp, hmk, hcr]
  rw [if_neg hcl, hmin, if_pos (by omega)]

theorem getRequest_file (srv : FileServer) (cwd : List Char) (fs : FileSys) (r : Request)
    (mimeByExt : List Char → String) (p : List Char) (content : List Nat)
    (hsp : securePath srv cwd r.urlPath = .ok p)
    (hlk : lookupFs fs p = some (.file content)) :
    getRequest srv cwd fs r mimeByExt = (.fileContent p content (content.length : Int), fs) := by
  simp only [getRequest, hsp, hlk]

theorem deleteRequest_readonly (srv : FileServer) (cwd : List Char) (fs : FileSys)
    (r : Request) (hro : srv.readOnly = true) :
    deleteRequest srv cwd fs r = (.errorResp 403 "Server is read-only", fs) := by
  simp [deleteRequest, hro]

theorem deleteRequest_nodelete (srv : FileServer) (cwd : List Char) (fs : FileSys)
    (r : Request) (hro : srv.readOnly = false) (had : srv.allowDelete = false) :
    deleteRequest srv cwd fs r = (.errorResp 403 "Delete operations not allowed", fs) := by
  simp [deleteRequest, hro, had]

theorem serveDirLoop_spec (relativePath : List Char) (mimeByExt : List Char → String) :
    ∀ entries : List GoDirEntry,
      serveDirLoop relativePath mimeByExt entries =
        ((entries.filter (fun e => e.infoOk)).map (mkFileInfo relativePath mimeByExt),
         ((entries.filter (fun e => e.infoOk && !e.isDir)).map (fun e => e.size)).sum) := by
  intro entries
  induction entries with
  | nil => rfl
  | cons e rest ih =>
    by_cases hok : e.infoOk = false
    · simp [serveDirLoop, hok, List.filter_cons, ih]
    · have hok2 : e.infoOk = true := by simpa using hok
      by_cases hdir : e.isDir
      · simp [serveDirLoop, hok2, hdir, List.filter_cons, ih]
      · simp [serveDirLoop, hok2, hdir, List.filter_cons, ih]

theorem lookupFs_remove_ne (fs : FileSys) (d p : List Char) (h : d ≠ p) :
    lookupFs (removeFs fs d) p = lookupFs fs p := by
  induction fs with
  | nil => rfl
  | cons kv rest ih =>
    by_cases hkv : kv.1 = d
    · have heq : removeFs (kv :: rest) d = removeFs rest d := by
        simp [removeFs, List.filter_cons, hkv]
      rw [heq, ih]
      have hne : ¬ kv.1 = p := by rw [hkv]; exact h
      simp [lookupFs, hne]
    · have heq : removeFs (kv :: rest) d = kv :: removeFs rest d := by
        simp [removeFs, List.filter_cons, bne_iff_ne, hkv]
      rw [heq]
      by_cases hp : kv.1 = p
      · simp [lookupFs, hp]
      · simp [lookupFs, hp]
        exact ih

theorem lookupFs_after_mkdirAll {fs fs1 : FileSys} {d p : List Char}
    (hmk : mkdirAllFs fs d = some fs1) (hdp : d ≠ p) :
    lookupFs fs1 p = lookupFs fs p := by
  unfold mkdirAllFs at hmk
  rcases hlk : lookupFs fs d with _ | e
  · rw [hlk] at hmk
    injection hmk with hmk2
    rw [← hmk2]
    have hne : ¬ d = p := hdp
    simp only [insertFs, lookupFs]
    rw [if_neg hne]
    exact lookupFs_remove_ne fs d p hdp
  · cases e with
    | file c => rw [hlk] at hmk; exact Option.noConfusion hmk
    | dir =>
      rw [hlk] at hmk
      injection hmk with hmk2
      rw [← hmk2]

theorem lookupFs_after_mkdirAll_file {fs fs1 : FileSys} {d p : List Char} {old : List Nat}
    (hmk : mkdirAllFs fs d = some fs1) (hold : lookupFs fs p = some (.file old)) :
    lookupFs fs1 p = some (.file old) := by
  by_cases hdp : d = p
  · subst hdp
    unfold mkdirAllFs at hmk
    rw [hold] at hmk
    exact Option.noConfusion hmk
  · rw [lookupFs_after_mkdirAll hmk hdp]
    exact hold

theorem lookupFs_eq_after_mkdirAll_create {fs fs1 fs2 : FileSys} {d p : List Char}
    (hmk : mkdirAllFs fs d = some fs1) (hcr : createFile fs1 p = some fs2) :
    lookupFs fs1 p = lookupFs fs p := by
  by_cases hdp : d = p
  · subst hdp
    unfold mkdirAllFs at hmk
    rcases hlk : lookupFs fs d with _ | e
    · rw [hlk] at hmk
      injection hmk with hmk2
      exfalso
      have hdir : lookupFs fs1 d = some .dir := by
        rw [← hmk2]
        exact lookupFs_insert_self fs d .dir
      unfold createFile at hcr
      rw [hdir] at hcr
      exact Option.noConfusion hcr
    · cases e with
      | file c => rw [hlk] at hmk; exact Option.noConfusion hmk
      | dir =>
        rw [hlk] at hmk
        injection hmk with hmk2
        rw [← hmk2]
        exact hlk
  · exact lookupFs_after_mkdirAll hmk hdp

theorem createFile_of_none {fs1 : FileSys} {p : List Char} (h : lookupFs fs1 p = none) :
    createFile fs1 p = some (insertFs fs1 p (.file [])) := by
  unfold createFile
  rw [h]

theorem createFile_of_file {fs1 : FileSys} {p : List Char} {c : List Nat}
    (h : lookupFs fs1 p = some (.file c)) :
    createFile fs1 p = some (insertFs fs1 p (.file [])) := by
  unfold createFile
  rw [h]

theorem goClean_head_slash {p : List Char} (h : p.head? = some '/') :
    (goClean p).head? = some '/' := by
  cases p with
  | nil => simp at h
  | cons c rest =>
    have hc : c = '/' := by simpa using h
    subst hc
    have hinv := cleanLoopF_rooted_inv rest.length rest ['/'] 1 (Nat.le_refl _)
      (Nat.le_refl _) (by simp) rfl
    have hne : cleanLoopF true rest.length rest ['/'] 1 ≠ [] := by
      intro hemp
      rw [hemp] at hinv
      simp at hinv
    have hval : goClean ('/' :: rest) = cleanLoopF true rest.length rest ['/'] 1 := by
      simp only [goClean, if_true]
      rw [if_neg hne]
    rw [hval]
    exact hinv.1

/-! ### Claim theorems -/

/-- Claim C2: for every request path whose lexically normalized form contains a
parent-directory (`..`) segment anywhere, including at the start, `securePath`
returns the path-traversal rejection and never a filesystem path. -/
theorem securePath_rejects_dotdot_segments (srv : FileServer) (cwd url : List Char)
    (h : hasDotDotSegment (goClean url) = true) :
    securePath srv cwd url = .error .pathTraversal := by
  apply securePath_eq_of_check_true
  rw [contains_of_dotdot_segment h]
  rfl

/-- Witness for C2: the cleaned form of `"../x"` keeps its `..` segment and the
request is rejected as path traversal. -/
theorem securePath_rejects_dotdot_witness :
    hasDotDotSegment (goClean ("../x").data) = true ∧
      securePath ⟨("/data").data, false, true, 100⟩ ("/").data ("../x").data =
        .error .pathTraversal :=
  ⟨by decide, securePath_rejects_dotdot_segments _ _ _ (by decide)⟩

/-- Claim C1 (amended): for a canonical absolute root other than `/`
(written `/seg1/.../segn` with well-formed components), every accepted request
path resolves to the root itself or to the root followed by a separator; a
request whose canonical candidate merely extends the root as a string without
a following separator (a sibling such as `/data-other` for root `/data`) is
rejected, but by the `..`-substring check, i.e. with `pathTraversal` rather
than `outsideRoot` — such a candidate can only arise from a `..` segment. -/
theorem securePath_confinement_and_sibling_rejection (segs : List (List Char))
    (srv : FileServer) (cwd url : List Char)
    (hroot : srv.dataDir = '/' :: joinSegs segs)
    (hsegs : ∀ s, s ∈ segs → CleanSeg s) (hne : segs ≠ []) :
    (∀ p, securePath srv cwd url = .ok p →
        p = srv.dataDir ∨ ∃ t, p = srv.dataDir ++ '/' :: t) ∧
    ((∃ t, canonicalCandidate srv cwd url = srv.dataDir ++ t ∧ t ≠ [] ∧
        t.head? ≠ some '/') →
      securePath srv cwd url = .error .pathTraversal) := by
  constructor
  · intro p hok
    obtain ⟨hp, hchk⟩ := securePath_ok_eq hok
    have hnos := trimPrefixL_no_dotdot (Bool.or_eq_false_iff.1 hchk).1
    rw [hp, hroot]
    rcases fullPath_containment segs hsegs hne (trimPrefixL ['/'] (goClean url)) hnos
      with h | ⟨t, h, -⟩
    · exact Or.inl h
    · exact Or.inr ⟨t, h⟩
  · rintro ⟨t, hcand, htne, hthead⟩
    by_cases hchk : (containsSub ['.', '.'] (goClean url) ||
        hasPrefixB ['/', '.', '.'] (goClean url)) = true
    · exact securePath_eq_of_check_true srv cwd url hchk
    · exfalso
      have hfalse : (containsSub ['.', '.'] (goClean url) ||
          hasPrefixB ['/', '.', '.'] (goClean url)) = false := by simpa using hchk
      rcases canonicalCandidate_containment segs srv cwd url hroot hsegs hne hfalse
        with h | ⟨t2, h⟩
      · rw [hcand] at h
        have h2 : srv.dataDir ++ t = srv.dataDir ++ [] := by
          rw [List.append_nil]
          exact h
        exact htne (List.append_cancel_left h2)
      · rw [hcand] at h
        have h2 : t = '/' :: t2 := List.append_cancel_left h
        rw [h2] at hthead
        simp at hthead

/-- Witness for C1: with root `/data`, the request `/x` is accepted and the
result `/data/x` extends the root across a separator. -/
theorem securePath_confinement_witness :
    securePath ⟨("/data").data, false, true, 100⟩ ("/").data ("/x").data =
      .ok ("/data/x").data ∧
    (("/data/x").data = (⟨("/data").data, false, true, 100⟩ : FileServer).dataDir ∨
      ∃ t, ("/data/x").data =
        (⟨("/data").data, false, true, 100⟩ : FileServer).dataDir ++ '/' :: t) :=
  ⟨by decide,
   (securePath_confinement_and_sibling_rejection [("data").data]
      ⟨("/data").data, false, true, 100⟩ ("/").data ("/x").data (by decide)
      (by decide) (by decide)).1 ("/data/x").data (by decide)⟩

/-- Counterexample for C1 as stated: with root `/data` the request
`a/../../data-other` has canonical candidate `/data-other` — the root as a
mere string prefix with no following separator — yet `securePath` rejects it
with the path-traversal error, not with `outsideRoot`. -/
theorem securePath_sibling_kind_cex :
    (∃ t, canonicalCandidate ⟨("/data").data, false, true, 100⟩ ("/").data
        ("a/../../data-other").data = ("/data").data ++ t ∧ t ≠ [] ∧
        t.head? ≠ some '/') ∧
    securePath ⟨("/data").data, false, true, 100⟩ ("/").data
      ("a/../../data-other").data = .error .pathTraversal ∧
    securePath ⟨("/data").data, false, true, 100⟩ ("/").data
      ("a/../../data-other").data ≠ .error .outsideRoot :=
  ⟨⟨("-other").data, by decide, by decide, by decide⟩, by decide, by decide⟩

/-- Claim C4 (amended): `securePath` returns the joined path
`Join(dataDir, cleaned-and-trimmed request)`, not its canonicalized absolute
form; the result is absolute whenever the configured data directory is
absolute, but stays relative when the data directory is relative. -/
theorem securePath_returns_joined_path (srv : FileServer) (cwd url p : List Char)
    (hok : securePath srv cwd url = .ok p) :
    p = filepathJoin srv.dataDir (trimPrefixL ['/'] (goClean url)) ∧
      (srv.dataDir.head? = some '/' → p.head? = some '/') := by
  obtain ⟨hp, hchk⟩ := securePath_ok_eq hok
  refine ⟨hp, fun habs => ?_⟩
  rw [hp]
  rcases hd : srv.dataDir with _ | ⟨c, dr⟩
  · rw [hd] at habs
    simp at habs
  · rw [hd] at habs
    have hc : c = '/' := by simpa using habs
    subst hc
    have hj : filepathJoin ('/' :: dr) (trimPrefixL ['/'] (goClean url)) =
        goClean (('/' :: dr) ++ '/' :: trimPrefixL ['/'] (goClean url)) := by
      simp only [filepathJoin]
      rw [if_neg (by simp)]
    rw [hj]
    exact goClean_head_slash rfl

/-- Witness for C4: root `/data`, request `/x` — the returned path is the
joined path and it is absolute. -/
theorem securePath_returns_joined_path_witness :
    securePath ⟨("/data").data, false, true, 100⟩ ("/").data ("/x").data =
      .ok ("/data/x").data ∧
    (("/data/x").data : List Char) =
      filepathJoin ("/data").data (trimPrefixL ['/'] (goClean ("/x").data)) ∧
    ((("/data").data : List Char).head? = some '/' →
      (("/data/x").data : List Char).head? = some '/') :=
  ⟨by decide,
   securePath_returns_joined_path ⟨("/data").data, false, true, 100⟩ ("/").data
     ("/x").data ("/data/x").data (by decide)⟩

/-- Counterexample for C4 as stated: with the default relative data directory
`./` and working directory `/home`, the request `/a` is accepted but the
returned path is the relative `a`, not an absolute canonicalized path. -/
theorem securePath_relative_result_cex :
    securePath ⟨("./").data, false, true, 100⟩ ("/home").data ("/a").data =
      .ok ("a").data ∧
    (("a").data : List Char).head? ≠ some '/' :=
  ⟨by decide, by decide⟩

/-- Claim C3: with a writable server and a resolvable path, a PUT whose
streamed byte count is exactly `maxFileSize` succeeds with the full body
written; a PUT whose streamed byte count exceeds `maxFileSize` answers 413 and
leaves no file at the target (the partial file is deleted); and a PUT whose
declared content length exceeds `maxFileSize` is rejected 413 with the
filesystem untouched, before any bytes are written. -/
theorem putRequest_size_enforcement (srv : FileServer) (cwd : List Char)
    (fs fs1 fs2 : FileSys) (r : Request) (p : List Char)
    (hro : srv.readOnly = false)
    (hsp : securePath srv cwd r.urlPath = .ok p)
    (hmk : mkdirAllFs fs (goDir p) = some fs1)
    (hcr : createFile fs1 p = some fs2)
    (hmax : 0 ≤ srv.maxFileSize) :
    (r.contentLength ≤ srv.maxFileSize → (r.body.length : Int) = srv.maxFileSize →
      ∃ st msg, (st = 201 ∨ st = 200) ∧
        putRequest srv cwd fs r =
          (.uploadOk st msg r.urlPath (r.body.length : Int),
           insertFs fs2 p (.file r.body))) ∧
    (r.contentLength ≤ srv.maxFileSize → srv.maxFileSize < (r.body.length : Int) →
      (putRequest srv cwd fs r).1 = .errorResp 413 "File too large" ∧
        lookupFs (putRequest srv cwd fs r).2 p = none) ∧
    (srv.maxFileSize < r.contentLength →
      putRequest srv cwd fs r = (.errorResp 413 "File too large", fs)) := by
  refine ⟨?_, ?_, ?_⟩
  · intro hcl hlen
    rw [putRequest_success srv cwd fs fs1 fs2 r p hro hsp (by omega) hmk hcr
      (le_of_eq hlen) hmax]
    by_cases hnew : (lookupFs fs1 p).isNone = true
    · refine ⟨201, "File created successfully", Or.inl rfl, ?_⟩
      rw [if_pos hnew, if_pos hnew]
    · refine ⟨200, "File updated successfully", Or.inr rfl, ?_⟩
      rw [if_neg hnew, if_neg hnew]
  · intro hcl hbig
    rw [putRequest_toolarge srv cwd fs fs1 fs2 r p hro hsp (by omega) hmk hcr hbig hmax]
    exact ⟨rfl, lookupFs_remove_self _ _⟩
  · intro hcl
    exact putRequest_precheck srv cwd fs r p hro hsp hcl

/-- Witness for C3: a 2-byte body with `maxFileSize = 2` is written in full. -/
theorem putRequest_size_enforcement_witness :
    ∃ st msg, (st = 201 ∨ st = 200) ∧
      putRequest ⟨("/data").data, false, true, 2⟩ ("/").data
        [(("/data").data, FsEntry.dir)] ⟨"PUT", ("/x").data, 2, [7, 7], false⟩ =
        (.uploadOk st msg ("/x").data ((([7, 7] : List Nat).length : Int)),
         insertFs (insertFs [(("/data").data, FsEntry.dir)] ("/data/x").data (.file []))
           ("/data/x").data (.file [7, 7])) :=
  (putRequest_size_enforcement ⟨("/data").data, false, true, 2⟩ ("/").data
    [(("/data").data, FsEntry.dir)] [(("/data").data, FsEntry.dir)]
    (insertFs [(("/data").data, FsEntry.dir)] ("/data/x").data (.file []))
    ⟨"PUT", ("/x").data, 2, [7, 7], false⟩ ("/data/x").data rfl (by decide) (by decide)
    (by decide) (by decide)).1 (by decide) (by decide)

/-- Claim C6: a successful PUT answers 201 with message `File created
successfully` exactly when the target did not exist before the write, and 200
with `File updated successfully` otherwise; either way the reported size is
the number of bytes written. -/
theorem putRequest_created_vs_updated (srv : FileServer) (cwd : List Char)
    (fs fs1 fs2 : FileSys) (r : Request) (p : List Char)
    (hro : srv.readOnly = false)
    (hsp : securePath srv cwd r.urlPath = .ok p)
    (hcl : r.contentLength ≤ srv.maxFileSize)
    (hmk : mkdirAllFs fs (goDir p) = some fs1)
    (hcr : createFile fs1 p = some fs2)
    (hbody : (r.body.length : Int) ≤ srv.maxFileSize)
    (hmax : 0 ≤ srv.maxFileSize) :
    putRequest srv cwd fs r =
      (.uploadOk (if lookupFs fs p = none then 201 else 200)
        (if lookupFs fs p = none then "File created successfully"
         else "File updated successfully")
        r.urlPath (r.body.length : Int),
       insertFs fs2 p (.file r.body)) := by
  rw [putRequest_success srv cwd fs fs1 fs2 r p hro hsp (by omega) hmk hcr hbody hmax,
    lookupFs_eq_after_mkdirAll_create hmk hcr]
  simp [Option.isNone_iff_eq_none]

/-- Witness for C6: writing to a fresh path answers 201. -/
theorem putRequest_created_vs_updated_witness :
    putRequest ⟨("/data").data, false, true, 10⟩ ("/").data
      [(("/data").data, FsEntry.dir)] ⟨"PUT", ("/y").data, 3, [1, 2, 3], false⟩ =
      (.uploadOk (if lookupFs [(("/data").data, FsEntry.dir)] ("/data/y").data = none
          then 201 else 200)
        (if lookupFs [(("/data").data, FsEntry.dir)] ("/data/y").data = none
          then "File created successfully" else "File updated successfully")
        ("/y").data ((([1, 2, 3] : List Nat).length : Int)),
       insertFs (insertFs [(("/data").data, FsEntry.dir)] ("/data/y").data (.file []))
         ("/data/y").data (.file [1, 2, 3])) :=
  putRequest_created_vs_updated ⟨("/data").data, false, true, 10⟩ ("/").data
    [(("/data").data, FsEntry.dir)] [(("/data").data, FsEntry.dir)]
    (insertFs [(("/data").data, FsEntry.dir)] ("/data/y").data (.file []))
    ⟨"PUT", ("/y").data, 3, [1, 2, 3], false⟩ ("/data/y").data rfl (by decide) (by decide)
    (by decide) (by decide) (by decide) (by decide)

/-- Claim C9: writing content C to a fresh path and then reading that path on
the resulting filesystem streams back exactly C with the matching byte
length. -/
theorem put_then_get_roundtrip (srv : FileServer) (cwd : List Char) (fs fs1 : FileSys)
    (r : Request) (p : List Char) (mimeByExt : List Char → String)
    (hro : srv.readOnly = false)
    (hsp : securePath srv cwd r.urlPath = .ok p)
    (hcl : r.contentLength ≤ srv.maxFileSize)
    (hmk : mkdirAllFs fs (goDir p) = some fs1)
    (hnew : lookupFs fs p = none)
    (hdir : goDir p ≠ p)
    (hbody : (r.body.length : Int) ≤ srv.maxFileSize)
    (hmax : 0 ≤ srv.maxFileSize) :
    (getRequest srv cwd (putRequest srv cwd fs r).2 r mimeByExt).1 =
      .fileContent p r.body (r.body.length : Int) := by
  have h1 : lookupFs fs1 p = none := by
    rw [lookupFs_after_mkdirAll hmk hdir]
    exact hnew
  have hcr := createFile_of_none h1
  rw [putRequest_success srv cwd fs fs1 _ r p hro hsp (by omega) hmk hcr hbody hmax]
  have hlk : lookupFs (insertFs (insertFs fs1 p (.file [])) p (.file r.body)) p =
      some (.file r.body) := lookupFs_insert_self _ _ _
  rw [getRequest_file srv cwd _ r mimeByExt p r.body hsp hlk]

/-- Witness for C9: scenario A — writing `hello` to `/a/b.txt` under root
`/srv` then reading it back yields the same five bytes. -/
theorem put_then_get_roundtrip_witness :
    (getRequest ⟨("/srv").data, false, true, 100⟩ ("/").data
      (putRequest ⟨("/srv").data, false, true, 100⟩ ("/").data [(("/srv").data, FsEntry.dir)]
        ⟨"PUT", ("/a/b.txt").data, 5, [104, 101, 108, 108, 111], false⟩).2
      ⟨"PUT", ("/a/b.txt").data, 5, [104, 101, 108, 108, 111], false⟩ (fun _ => "")).1 =
      .fileContent ("/srv/a/b.txt").data [104, 101, 108, 108, 111]
        ((([104, 101, 108, 108, 111] : List Nat).length : Int)) :=
  put_then_get_roundtrip ⟨("/srv").data, false, true, 100⟩ ("/").data
    [(("/srv").data, FsEntry.dir)] ((("/srv/a").data, FsEntry.dir) ::
      [(("/srv").data, FsEntry.dir)])
    ⟨"PUT", ("/a/b.txt").data, 5, [104, 101, 108, 108, 111], false⟩ ("/srv/a/b.txt").data
    (fun _ => "") rfl (by decide) (by decide) (by decide) (by decide) (by decide)
    (by decide) (by decide)

/-- Claim C10 (implicit): a PUT to an existing file whose streamed body
exceeds `maxFileSize` destroys the pre-existing content — the target is
truncated at open time and removed on the size error, so afterwards the path
no longer exists; updates are not atomic under the streamed-size rejection. -/
theorem put_oversize_removes_existing_file (srv : FileServer) (cwd : List Char)
    (fs fs1 : FileSys) (r : Request) (p : List Char) (old : List Nat)
    (hro : srv.readOnly = false)
    (hsp : securePath srv cwd r.urlPath = .ok p)
    (hcl : r.contentLength ≤ srv.maxFileSize)
    (hold : lookupFs fs p = some (.file old))
    (hmk : mkdirAllFs fs (goDir p) = some fs1)
    (hbody : srv.maxFileSize < (r.body.length : Int))
    (hmax : 0 ≤ srv.maxFileSize) :
    (putRequest srv cwd fs r).1 = .errorResp 413 "File too large" ∧
      lookupFs (putRequest srv cwd fs r).2 p = none := by
  have h1 : lookupFs fs1 p = some (.file old) := lookupFs_after_mkdirAll_file hmk hold
  have hcr := createFile_of_file h1
  rw [putRequest_toolarge srv cwd fs fs1 _ r p hro hsp (by omega) hmk hcr hbody hmax]
  exact ⟨rfl, lookupFs_remove_self _ _⟩

/-- Witness for C10: a 3-byte body over the 2-byte limit erases the existing
1-byte file at the target. -/
theorem put_oversize_removes_existing_file_witness :
    (putRequest ⟨("/data").data, false, true, 2⟩ ("/").data
        [(("/data/x").data, FsEntry.file [9]), (("/data").data, FsEntry.dir)]
        ⟨"PUT", ("/x").data, 2, [1, 2, 3], false⟩).1 =
      .errorResp 413 "File too large" ∧
    lookupFs (putRequest ⟨("/data").data, false, true, 2⟩ ("/").data
        [(("/data/x").data, FsEntry.file [9]), (("/data").data, FsEntry.dir)]
        ⟨"PUT", ("/x").data, 2, [1, 2, 3], false⟩).2 ("/data/x").data = none :=
  put_oversize_removes_existing_file ⟨("/data").data, false, true, 2⟩ ("/").data
    [(("/data/x").data, FsEntry.file [9]), (("/data").data, FsEntry.dir)]
    [(("/data/x").data, FsEntry.file [9]), (("/data").data, FsEntry.dir)]
    ⟨"PUT", ("/x").data, 2, [1, 2, 3], false⟩ ("/data/x").data [9] rfl (by decide)
    (by decide) (by decide) (by decide) (by decide) (by decide)

/-- Claim C7: a read-only server rejects every PUT and every DELETE with 403
before touching the filesystem, and a server with deletes disabled rejects
every DELETE with 403 even when it is not read-only; in all cases the
filesystem is returned unchanged. -/
theorem readonly_and_delete_disabled_gates (srv : FileServer) (cwd : List Char)
    (fs : FileSys) (r : Request) :
    (srv.readOnly = true →
      putRequest srv cwd fs r = (.errorResp 403 "Server is read-only", fs) ∧
      deleteRequest srv cwd fs r = (.errorResp 403 "Server is read-only", fs)) ∧
    (srv.readOnly = false → srv.allowDelete = false →
      deleteRequest srv cwd fs r = (.errorResp 403 "Delete operations not allowed", fs)) :=
  ⟨fun hro => ⟨putRequest_readonly srv cwd fs r hro, deleteRequest_readonly srv cwd fs r hro⟩,
   fun hro had => deleteRequest_nodelete srv cwd fs r hro had⟩

/-- Witness for C7: a read-only server answers 403 to PUT with the filesystem
unchanged, and a no-delete server answers 403 to DELETE. -/
theorem readonly_and_delete_disabled_gates_witness :
    (putRequest ⟨("/data").data, true, true, 100⟩ ("/").data [] 
        ⟨"PUT", ("/x").data, 1, [1], false⟩ =
      (.errorResp 403 "Server is read-only", []) ∧
     deleteRequest ⟨("/data").data, true, true, 100⟩ ("/").data []
        ⟨"PUT", ("/x").data, 1, [1], false⟩ =
      (.errorResp 403 "Server is read-only", [])) ∧
    deleteRequest ⟨("/data").data, false, false, 100⟩ ("/").data []
        ⟨"DELETE", ("/x").data, 0, [], false⟩ =
      (.errorResp 403 "Delete operations not allowed", []) :=
  ⟨(readonly_and_delete_disabled_gates ⟨("/data").data, true, true, 100⟩ ("/").data []
      ⟨"PUT", ("/x").data, 1, [1], false⟩).1 rfl,
   (readonly_and_delete_disabled_gates ⟨("/data").data, false, false, 100⟩ ("/").data []
      ⟨"DELETE", ("/x").data, 0, [], false⟩).2 rfl rfl⟩

/-- Claim C8 (amended): every method other than GET, PUT, DELETE — and other
than OPTIONS, which the dispatcher answers 200 up front — receives a 405
method-not-allowed error response, with no path resolution and the filesystem
unchanged. -/
theorem ServeHTTP_unsupported_method (srv : FileServer) (cwd : List Char) (fs : FileSys)
    (mimeByExt : List Char → String) (r : Request)
    (h1 : r.method ≠ "OPTIONS") (h2 : r.method ≠ "GET") (h3 : r.method ≠ "PUT")
    (h4 : r.method ≠ "DELETE") :
    ServeHTTP srv cwd fs mimeByExt r = (.errorResp 405 "Method not allowed", fs) := by
  simp [ServeHTTP, h1, h2, h3, h4]

/-- Witness for C8: a POST request is answered 405 with the filesystem
unchanged. -/
theorem ServeHTTP_unsupported_method_witness :
    ServeHTTP ⟨("/data").data, false, true, 100⟩ ("/").data [] (fun _ => "")
      ⟨"POST", ("/x").data, 0, [], false⟩ = (.errorResp 405 "Method not allowed", []) :=
  ServeHTTP_unsupported_method ⟨("/data").data, false, true, 100⟩ ("/").data [] (fun _ => "")
    ⟨"POST", ("/x").data, 0, [], false⟩ (by decide) (by decide) (by decide) (by decide)

/-- Counterexample for C8 as stated: OPTIONS is not GET, PUT or DELETE, yet
the dispatcher answers it 200 (an empty OK), not a 405 method-not-allowed
error. -/
theorem ServeHTTP_options_cex :
    ServeHTTP ⟨("/data").data, false, true, 100⟩ ("/").data [] (fun _ => "")
      ⟨"OPTIONS", ("/x").data, 0, [], false⟩ = (.optionsOk, []) ∧
    (Outcome.optionsOk ≠ .errorResp 405 "Method not allowed") :=
  ⟨rfl, by decide⟩

/-- Claim C5 (amended): a directory listing renders the path relative to the
data directory (`/` when equal), assembles one entry per child whose metadata
was readable — carrying the name, the isDirectory flag, the stat-reported
size as-is (directories included, not forced to 0), the modification time,
the relative forward-slash path, and a MIME type only for files when the
lookup is non-empty — while `totalSize` sums the sizes of file entries only
and `count` is the number of assembled entries. -/
theorem serveDirectory_assembly (srv : FileServer) (dirPath : List Char)
    (entries : List GoDirEntry) (mimeByExt : List Char → String) :
    serveDirectory srv dirPath entries mimeByExt =
      .listing ⟨(if trimPrefixL srv.dataDir dirPath = [] then ['/']
                 else trimPrefixL srv.dataDir dirPath),
        (entries.filter (fun e => e.infoOk)).map (mkFileInfo
          (if trimPrefixL srv.dataDir dirPath = [] then ['/']
           else trimPrefixL srv.dataDir dirPath) mimeByExt),
        ((entries.filter (fun e => e.infoOk && !e.isDir)).map (fun e => e.size)).sum,
        (entries.filter (fun e => e.infoOk)).length⟩ ∧
    ∀ fi, fi ∈ (entries.filter (fun e => e.infoOk)).map (mkFileInfo
        (if trimPrefixL srv.dataDir dirPath = [] then ['/']
         else trimPrefixL srv.dataDir dirPath) mimeByExt) →
      fi.isDir = true → fi.mimeType = "" := by
  constructor
  · simp only [serveDirectory, serveDirLoop_spec]
    rw [List.length_map]
  · intro fi hfi hdir
    rcases List.mem_map.1 hfi with ⟨e, he, rfl⟩
    simp only [mkFileInfo] at hdir ⊢
    rw [if_pos hdir]

/-- Witness for C5: a readable 5-byte file entry under `/srv/a` is rendered
with relative path `/a`, total size 5 and count 1. -/
theorem serveDirectory_assembly_witness :
    serveDirectory ⟨("/srv").data, false, true, 100⟩ ("/srv/a").data
      [⟨("b.txt").data, false, true, 5, "t"⟩] (fun _ => "") =
      .listing ⟨(if trimPrefixL ("/srv").data ("/srv/a").data = [] then ['/']
                 else trimPrefixL ("/srv").data ("/srv/a").data),
        (([⟨("b.txt").data, false, true, 5, "t"⟩] : List GoDirEntry).filter
          (fun e => e.infoOk)).map (mkFileInfo
            (if trimPrefixL ("/srv").data ("/srv/a").data = [] then ['/']
             else trimPrefixL ("/srv").data ("/srv/a").data) (fun _ => "")),
        ((([⟨("b.txt").data, false, true, 5, "t"⟩] : List GoDirEntry).filter
          (fun e => e.infoOk && !e.isDir)).map (fun e => e.size)).sum,
        (([⟨("b.txt").data, false, true, 5, "t"⟩] : List GoDirEntry).filter
          (fun e => e.infoOk)).length⟩ :=
  (serveDirectory_assembly ⟨("/srv").data, false, true, 100⟩ ("/srv/a").data
    [⟨("b.txt").data, false, true, 5, "t"⟩] (fun _ => "")).1

/-- Counterexample for C5 as stated: a directory child whose stat size is
4096 is listed with size 4096, not 0 — the code copies `info.Size()` for
directories too. -/
theorem serveDirectory_dir_size_cex :
    serveDirectory ⟨("/data").data, false, true, 100⟩ ("/data/sub").data
      [⟨("d").data, true, true, 4096, "2024-01-01T00:00:00Z"⟩] (fun _ => "") =
      .listing ⟨("/sub").data,
        [⟨("d").data, true, 4096, "2024-01-01T00:00:00Z", ("/sub/d").data, ""⟩], 0, 1⟩ ∧
    (FileInfo.mk ("d").data true 4096 "2024-01-01T00:00:00Z" ("/sub/d").data "").isDir =
      true ∧
    (FileInfo.mk ("d").data true 4096 "2024-01-01T00:00:00Z" ("/sub/d").data "").size ≠ 0 :=
  ⟨by decide, rfl, by decide⟩
